import Mathlib

/- Verification of the WorktrackerPro experience search/filter engine, the
   column-key generation rule and the column-ordering operations, as a shallow
   embedding of the TypeScript sources (server storage module and
   client/src/lib/config.ts) in Lean 4. -/

set_option maxHeartbeats 1000000

namespace Worktracker

/- JSON-shaped values stored in an experience's `customFields` bag
   (jsonb column).  Only the shapes the code can meet matter: null, strings,
   numbers, booleans and arrays. -/
inductive JValue where
  | jnull : JValue
  | jstr (s : String) : JValue
  | jnum (n : Int) : JValue
  | jbool (b : Bool) : JValue
  | jarr (elems : List JValue) : JValue

/- JavaScript truthiness of a JSON value: null, "", 0 and false are falsy;
   every array (even empty) is truthy. -/
def jsFalsy : JValue → Bool
  | .jnull => true
  | .jstr s => s = ""
  | .jnum n => n = 0
  | .jbool b => !b
  | .jarr _ => false

/- `String.prototype.toLowerCase` restricted to the ASCII range, modelled
   character by character. -/
def jsLower (s : String) : String :=
  String.mk (s.data.map Char.toLower)

/- Calling `.toLowerCase()` on a JSON value: defined on strings, a TypeError
   on every other shape (numbers, booleans, arrays have no such method). -/
def jsToLowerE : JValue → Except String String
  | .jstr s => .ok (jsLower s)
  | _ => .error "TypeError: toLowerCase is not a function"

/- JavaScript `String(value)` on the scalar shapes (the code only reaches it
   after the array case has been handled; the array case here is unreachable
   and mapped to ""). -/
def jsString : JValue → String
  | .jnull => "null"
  | .jstr s => s
  | .jnum n => toString n
  | .jbool b => cond b "true" "false"
  | .jarr _ => ""

/- `needle.isPrefixOf hay` on character lists, written out so its equations
   are directly usable. -/
def hasPref : List Char → List Char → Bool
  | [], _ => true
  | _ :: _, [] => false
  | a :: as, b :: bs => a == b && hasPref as bs

/- Substring occurrence on character lists; `hasSub n h` is
   `h.includes(n)` in JavaScript terms. -/
def hasSub (needle : List Char) : List Char → Bool
  | [] => needle.isEmpty
  | c :: rest => hasPref needle (c :: rest) || hasSub needle rest

/- `hay.includes(needle)` for strings. -/
def jsIncludes (hay needle : String) : Bool :=
  hasSub needle.data hay.data

structure Tag where
  id : Int
  name : String
deriving DecidableEq

/- An experience record as the search code sees it: dates already comparable
   (modelled as integers, monotone in time), the jsonb `customFields` bag as
   a key/value list and the optionally pre-joined tags (`exp.tags` may be
   undefined, hence `Option`). -/
structure Experience where
  id : Int
  startDate : Int
  endDate : Option Int
  customFields : List (String × JValue)
  tags : Option (List Tag)

/- The parameter object of `searchExperiences`; every field optional. -/
structure SearchParams where
  startDate : Option Int := none
  endDate : Option Int := none
  tagIds : Option (List Int) := none
  searchTerm : Option String := none
  dropdownFilters : Option (List (String × List String)) := none

def emptySpec : SearchParams := {}

/- JavaScript object access `fields[key]` on the customFields bag. -/
def lookupField (fields : List (String × JValue)) (key : String) : Option JValue :=
  (fields.find? (fun kv => kv.1 == key)).map (fun kv => kv.2)

/- Fallible monadic counterparts of `Array.prototype.some` / `every` /
   `map` / `filter`: the callback may throw, evaluation order and
   short-circuiting follow JavaScript. -/
def someE (f : α → Except String Bool) : List α → Except String Bool
  | [] => pure false
  | a :: as => do
    let b ← f a
    if b then pure true else someE f as

def everyE (f : α → Except String Bool) : List α → Except String Bool
  | [] => pure true
  | a :: as => do
    let b ← f a
    if b then everyE f as else pure false

def mapE (f : α → Except String β) : List α → Except String (List β)
  | [] => pure []
  | a :: as => do
    let b ← f a
    let bs ← mapE f as
    pure (b :: bs)

def filterE (p : α → Except String Bool) : List α → Except String (List α)
  | [] => pure []
  | a :: as => do
    let b ← p a
    let rest ← filterE p as
    pure (if b then a :: rest else rest)

/- ------------------------------------------------------------------
   DatabaseStorage.searchExperiences (server storage module), one stage per
   commented block of the source, applied in source order.
   ------------------------------------------------------------------ -/

/- `if (params.startDate) { filter(exp => new Date(exp.startDate) >= startDate) }` -/
def filterByStartDate (o : Option Int) (l : List Experience) : List Experience :=
  match o with
  | some d => l.filter (fun e => decide (d ≤ e.startDate))
  | none => l

/- `if (params.endDate) { filter(exp => !exp.endDate || new Date(exp.endDate) <= endDate) }` -/
def filterByEndDate (o : Option Int) (l : List Experience) : List Experience :=
  match o with
  | some d =>
    l.filter (fun e =>
      match e.endDate with
      | none => true
      | some x => decide (x ≤ d))
  | none => l

/- `exp.tags?.some(tag => params.tagIds!.includes(tag.id))` -/
def tagMatch (e : Experience) (ids : List Int) : Bool :=
  match e.tags with
  | some ts => ts.any (fun tg => ids.contains tg.id)
  | none => false

/- `if (params.tagIds && params.tagIds.length > 0) { ... }` -/
def filterByTags (o : Option (List Int)) (l : List Experience) : List Experience :=
  match o with
  | some ids => if 0 < ids.length then l.filter (fun e => tagMatch e ids) else l
  | none => l

/- The body of the dropdown-filter callback after `fieldValue` has been
   looked up and found truthy: the `Array.isArray` branch lower-cases every
   element of the stored array (throwing on non-strings) and intersects with
   the selected options; any other shape goes through the single-value branch
   `fieldValue.toLowerCase() === selected.toLowerCase()`. -/
def dropdownMatchValue (v : JValue) (sel : List String) : Except String Bool :=
  match v with
  | .jarr vs =>
    someE (fun s => do
      let lowered ← mapE jsToLowerE vs
      pure (lowered.contains (jsLower s))) sel
  | _ =>
    someE (fun s => do
      let fv ← jsToLowerE v
      pure (fv == jsLower s)) sel

/- One `[columnKey, selectedValues]` entry of `Object.entries(dropdownFilters)`:
   empty selections pass every record, the stored value is looked up at the
   lower-cased column key, and a missing or falsy stored value fails. -/
def dropdownEntryCheck (e : Experience) (key : String) (sel : List String) :
    Except String Bool :=
  if sel.length = 0 then pure true
  else
    match lookupField e.customFields (jsLower key) with
    | none => pure false
    | some v =>
      if jsFalsy v then pure false
      else dropdownMatchValue v sel

/- `Object.entries(params.dropdownFilters!).every(...)` for one record. -/
def dropdownPred (dfs : List (String × List String)) (e : Experience) :
    Except String Bool :=
  everyE (fun kv => dropdownEntryCheck e kv.1 kv.2) dfs

/- `if (params.dropdownFilters && Object.keys(params.dropdownFilters).length > 0)` -/
def filterByDropdowns (o : Option (List (String × List String)))
    (l : List Experience) : Except String (List Experience) :=
  match o with
  | some dfs =>
    if 0 < dfs.length then filterE (dropdownPred dfs) l else pure l
  | none => pure l

/- The search-term callback: custom-field values (skipping falsy ones; array
   values element-wise via `.toLowerCase()`, other shapes via
   `String(value).toLowerCase()`) OR tag names. -/
def searchTermPred (term : String) (e : Experience) : Except String Bool := do
  let cfMatch ← someE (fun kv =>
    if jsFalsy kv.2 then pure false
    else
      match kv.2 with
      | .jarr vs =>
        someE (fun x => do
          let s ← jsToLowerE x
          pure (jsIncludes s term)) vs
      | v => pure (jsIncludes (jsLower (jsString v)) term)) e.customFields
  let tagsMatch :=
    match e.tags with
    | some ts => ts.any (fun tg => jsIncludes (jsLower tg.name) term)
    | none => false
  pure (cfMatch || tagsMatch)

/- `if (params.searchTerm) { const searchTerm = params.searchTerm.toLowerCase(); ... }` -/
def filterBySearchTerm (o : Option String) (l : List Experience) :
    Except String (List Experience) :=
  match o with
  | some t => if t = "" then pure l else filterE (searchTermPred (jsLower t)) l
  | none => pure l

/- `DatabaseStorage.searchExperiences`: the in-memory filter chain applied to
   the materialized collection (dates, tags, dropdown filters, search term,
   in that order).  A stage whose callback throws propagates the error. -/
def searchExperiences (exps : List Experience) (p : SearchParams) :
    Except String (List Experience) := do
  let fe := filterByStartDate p.startDate exps
  let fe := filterByEndDate p.endDate fe
  let fe := filterByTags p.tagIds fe
  let fe ← filterByDropdowns p.dropdownFilters fe
  let fe ← filterBySearchTerm p.searchTerm fe
  pure fe

/- ------------------------------------------------------------------
   MemStorage.searchExperiences: same date blocks, but its own tag test
   (`tagIds.some(tagId => exp.tags.some(tag => tag.id === tagId))`) and a
   search-term test that only looks at string-typed custom-field values
   (`value && typeof value === 'string' && ...`); no dropdown filters.
   ------------------------------------------------------------------ -/

structure MemSearchParams where
  startDate : Option Int := none
  endDate : Option Int := none
  tagIds : Option (List Int) := none
  searchTerm : Option String := none

/- `if (!exp.tags) return false; return tagIds.some(tid => exp.tags.some(tag => tag.id === tid))` -/
def memTagMatch (e : Experience) (ids : List Int) : Bool :=
  match e.tags with
  | none => false
  | some ts => ids.any (fun tid => ts.any (fun tg => tg.id == tid))

/- `Object.values(exp.customFields).some(value => value && typeof value === 'string' && value.toLowerCase().includes(searchTerm))` -/
def memCustomFieldsMatch (e : Experience) (term : String) : Bool :=
  e.customFields.any (fun kv =>
    if jsFalsy kv.2 then false
    else
      match kv.2 with
      | .jstr s => jsIncludes (jsLower s) term
      | _ => false)

def memSearchTermMatch (e : Experience) (term : String) : Bool :=
  let tagsMatch :=
    match e.tags with
    | some ts => ts.any (fun tg => jsIncludes (jsLower tg.name) term)
    | none => false
  memCustomFieldsMatch e term || tagsMatch

def memSearchExperiences (exps : List Experience) (p : MemSearchParams) :
    List Experience :=
  let fe := filterByStartDate p.startDate exps
  let fe := filterByEndDate p.endDate fe
  let fe :=
    match p.tagIds with
    | some ids => if 0 < ids.length then fe.filter (fun e => memTagMatch e ids) else fe
    | none => fe
  match p.searchTerm with
  | some t => if t = "" then fe else fe.filter (fun e => memSearchTermMatch e (jsLower t))
  | none => fe

/- ------------------------------------------------------------------
   client/src/lib/config.ts
   ------------------------------------------------------------------ -/

/- Membership in the regex class `[a-z0-9]`. -/
def isLowerAlnum (c : Char) : Bool :=
  (decide ('a' ≤ c) && decide (c ≤ 'z')) || (decide ('0' ≤ c) && decide (c ≤ '9'))

/- `String.prototype.trim`, modelled on the character list: whitespace
   stripped from both ends. -/
def jsTrim (l : List Char) : List Char :=
  ((l.dropWhile Char.isWhitespace).reverse.dropWhile Char.isWhitespace).reverse

/- `name.toLowerCase().replace(/[^a-z0-9]/g, '').trim()` -/
def generateColumnKey (name : String) : String :=
  String.mk (jsTrim ((jsLower name).data.filter isLowerAlnum))

/- A column row as the column-configuration page sees it. -/
structure Column where
  id : Int
  name : String
  key : String
  type : String
  dropdownOptions : Option (List String)
  allowMultiple : Bool
  isVisible : Bool
  order : Int
deriving DecidableEq

/- `updateColumn({ id, data: { order } })` as seen through the storage layer:
   the row with the given id gets the new order, every other row and every
   other field is untouched. -/
def updateColumnOrder (cols : List Column) (cid : Int) (o : Int) : List Column :=
  cols.map (fun c => if c.id = cid then { c with order := o } else c)

/- `Array.prototype.findIndex`, with `none` standing for the sentinel -1. -/
def jsFindIndex (p : α → Bool) : List α → Option Nat
  | [] => none
  | a :: as => if p a then some 0 else (jsFindIndex p as).map (· + 1)

/- `moveColumnUp(column)` acting on the `sortedColumns` list: locate the
   column by id, bail out at the top (`currentIndex <= 0`, which also covers
   the -1 of a failed lookup), otherwise issue the two order updates (the
   moved column takes the previous column's order, then the previous column
   takes the moved column's original order). -/
def moveColumnUp (sortedCols : List Column) (column : Column) : List Column :=
  match jsFindIndex (fun c => c.id == column.id) sortedCols with
  | none => sortedCols
  | some i =>
    if i = 0 then sortedCols
    else
      match sortedCols[i - 1]? with
      | none => sortedCols
      | some prevColumn =>
        updateColumnOrder
          (updateColumnOrder sortedCols column.id prevColumn.order)
          prevColumn.id column.order

/- `moveColumnDown(column)`: symmetric, bailing out at the bottom
   (`currentIndex < 0 || currentIndex >= sortedColumns.length - 1`). -/
def moveColumnDown (sortedCols : List Column) (column : Column) : List Column :=
  match jsFindIndex (fun c => c.id == column.id) sortedCols with
  | none => sortedCols
  | some i =>
    if sortedCols.length - 1 ≤ i then sortedCols
    else
      match sortedCols[i + 1]? with
      | none => sortedCols
      | some nextColumn =>
        updateColumnOrder
          (updateColumnOrder sortedCols column.id nextColumn.order)
          nextColumn.id column.order

/- ------------------------------------------------------------------
   Value-shape predicates used to delimit the throw-free fragment.
   ------------------------------------------------------------------ -/

/- A string scalar or an array of string scalars. -/
def strShaped : JValue → Bool
  | .jstr _ => true
  | .jarr vs => vs.all (fun v => match v with | .jstr _ => true | _ => false)
  | _ => false

/- Shapes on which the whole engine is throw-free: strings, arrays of
   strings, or null. -/
def wfValue (v : JValue) : Bool :=
  strShaped v || (match v with | .jnull => true | _ => false)

def wfFields (fields : List (String × JValue)) : Bool :=
  fields.all (fun kv => wfValue kv.2)

def wfExperiences (exps : List Experience) : Bool :=
  exps.all (fun e => wfFields e.customFields)

def strFields (fields : List (String × JValue)) : Bool :=
  fields.all (fun kv => strShaped kv.2)

def strExperiences (exps : List Experience) : Bool :=
  exps.all (fun e => strFields e.customFields)

/- Every custom-field value a string scalar (the fragment on which the two
   storage implementations coincide). -/
def scalarStrFields (fields : List (String × JValue)) : Bool :=
  fields.all (fun kv => match kv.2 with | .jstr _ => true | _ => false)

def scalarStrExperiences (exps : List Experience) : Bool :=
  exps.all (fun e => scalarStrFields e.customFields)

/- ------------------------------------------------------------------
   Derived forms used by the theorems: the successful result of a search,
   total Boolean versions of the fallible predicates on throw-free value
   shapes, and the per-category pass conditions.
   ------------------------------------------------------------------ -/

/- The result list of a search that completed without throwing. -/
def searchOk (exps : List Experience) (p : SearchParams) : List Experience :=
  ((searchExperiences exps p).toOption).getD []

/- Total Boolean form of `dropdownEntryCheck` on string-shaped values
   (agreement is proved below, on the throw-free fragment). -/
def entryCheckB (e : Experience) (key : String) (sel : List String) : Bool :=
  if sel.length = 0 then true
  else
    match lookupField e.customFields (jsLower key) with
    | none => false
    | some v =>
      if jsFalsy v then false
      else
        match v with
        | .jstr s => sel.any (fun o => jsLower s == jsLower o)
        | .jarr vs =>
          sel.any (fun o =>
            (vs.map (fun x => match x with | .jstr s => jsLower s | _ => "")).contains
              (jsLower o))
        | _ => false

def dropdownPredB (dfs : List (String × List String)) (e : Experience) : Bool :=
  dfs.all (fun kv => entryCheckB e kv.1 kv.2)

/- Total Boolean form of `searchTermPred` on string-shaped values. -/
def searchTermPredB (term : String) (e : Experience) : Bool :=
  (e.customFields.any (fun kv =>
    if jsFalsy kv.2 then false
    else
      match kv.2 with
      | .jarr vs =>
        vs.any (fun x => jsIncludes (match x with | .jstr s => jsLower s | _ => "") term)
      | v => jsIncludes (jsLower (jsString v)) term)) ||
  (match e.tags with
   | some ts => ts.any (fun tg => jsIncludes (jsLower tg.name) term)
   | none => false)

/- Per-category pass conditions of the five filter stages, quantified over
   the optional parameter: an absent (or inactive) category holds vacuously. -/
def ActiveStart (p : SearchParams) (e : Experience) : Prop :=
  ∀ d, p.startDate = some d → d ≤ e.startDate

def ActiveEnd (p : SearchParams) (e : Experience) : Prop :=
  ∀ d, p.endDate = some d → ∀ x, e.endDate = some x → x ≤ d

def ActiveTags (p : SearchParams) (e : Experience) : Prop :=
  ∀ ids, p.tagIds = some ids → 0 < ids.length → tagMatch e ids = true

def ActiveDrop (p : SearchParams) (e : Experience) : Prop :=
  ∀ dfs, p.dropdownFilters = some dfs → 0 < dfs.length →
    dropdownPred dfs e = .ok true

def ActiveSearch (p : SearchParams) (e : Experience) : Prop :=
  ∀ t, p.searchTerm = some t → t ≠ "" → searchTermPred (jsLower t) e = .ok true

/- ------------------------------------------------------------------
   Concrete records used by counterexamples and witnesses.
   ------------------------------------------------------------------ -/

/- The spec scenario: two experiences whose multi-select `skills` field holds
   ["React"] resp. ["Python"]. -/
def expReact : Experience :=
  { id := 1, startDate := 20210101, endDate := none,
    customFields := [("skills", .jarr [.jstr "React"])], tags := some [] }

def expPython : Experience :=
  { id := 2, startDate := 20210101, endDate := none,
    customFields := [("skills", .jarr [.jstr "Python"])], tags := some [] }

/- A record whose stored custom-field key carries an upper-case letter. -/
def expUpperKey : Experience :=
  { id := 3, startDate := 0, endDate := none,
    customFields := [("Skills", .jarr [.jstr "React"])], tags := some [] }

/- A record with a numeric custom-field value 0. -/
def expZeroField : Experience :=
  { id := 4, startDate := 0, endDate := none,
    customFields := [("a", .jnum 0)], tags := some [] }

/- A record with a non-zero numeric custom-field value. -/
def expNumField : Experience :=
  { id := 5, startDate := 0, endDate := none,
    customFields := [("a", .jnum 42)], tags := some [] }

/- A record carrying only a tag named "REACT". -/
def expTagReact : Experience :=
  { id := 6, startDate := 0, endDate := none,
    customFields := [], tags := some [⟨11, "REACT"⟩] }

/- A record with startDate 2021-06-01 (dates encoded as yyyymmdd). -/
def expJune : Experience :=
  { id := 7, startDate := 20210601, endDate := none,
    customFields := [], tags := none }

/- Records with tags 21 resp. 22, for the tag-filter claims. -/
def expTag21 : Experience :=
  { id := 8, startDate := 0, endDate := none,
    customFields := [], tags := some [⟨21, "t21"⟩] }

def expTag22 : Experience :=
  { id := 9, startDate := 0, endDate := none,
    customFields := [], tags := some [⟨22, "t22"⟩] }

/- Three columns sorted by order, for the move-up/move-down claim. -/
def colA : Column := ⟨1, "A", "a", "short-text", none, false, true, 1⟩
def colB : Column := ⟨2, "B", "b", "short-text", none, false, true, 2⟩
def colC : Column := ⟨3, "C", "c", "short-text", none, false, true, 3⟩

/- ------------------------------------------------------------------
   Lemmas about the fallible array combinators.
   ------------------------------------------------------------------ -/

theorem exc_bind_ok (a : α) (f : α → Except String β) :
    (Except.ok a >>= f) = f a := rfl

theorem exc_bind_err (m : String) (f : α → Except String β) :
    ((Except.error m : Except String α) >>= f) = Except.error m := rfl

theorem exc_pure_eq_ok (a : α) : (pure a : Except String α) = Except.ok a := rfl

theorem filterE_eq_filter {p : α → Except String Bool} {q : α → Bool}
    {l : List α} (h : ∀ a ∈ l, p a = .ok (q a)) :
    filterE p l = .ok (l.filter q) := by
  induction l with
  | nil => rfl
  | cons a as ih =>
    have ha : p a = .ok (q a) := h a (List.mem_cons_self a as)
    have ih' := ih (fun x hx => h x (List.mem_cons_of_mem a hx))
    simp only [filterE, ha, exc_bind_ok, ih', List.filter_cons]
    cases hq : q a <;> simp [hq, exc_pure_eq_ok]

theorem filterE_ok_sublist {p : α → Except String Bool} {l r : List α}
    (h : filterE p l = .ok r) : r.Sublist l := by
  induction l generalizing r with
  | nil =>
    simp only [filterE, exc_pure_eq_ok, Except.ok.injEq] at h
    subst h; exact List.Sublist.refl _
  | cons a as ih =>
    simp only [filterE] at h
    cases hp : p a with
    | error m => rw [hp, exc_bind_err] at h; exact absurd h (by simp)
    | ok b =>
      rw [hp, exc_bind_ok] at h
      cases hrest : filterE p as with
      | error m => rw [hrest, exc_bind_err] at h; exact absurd h (by simp)
      | ok rest =>
        rw [hrest, exc_bind_ok, exc_pure_eq_ok, Except.ok.injEq] at h
        subst h
        cases b with
        | true => exact List.Sublist.cons₂ a (ih hrest)
        | false => exact List.Sublist.cons a (ih hrest)

theorem filterE_ok_mem {p : α → Except String Bool} {l r : List α}
    (h : filterE p l = .ok r) (a : α) :
    a ∈ r ↔ a ∈ l ∧ p a = .ok true := by
  induction l generalizing r with
  | nil =>
    simp only [filterE, exc_pure_eq_ok, Except.ok.injEq] at h
    subst h; simp
  | cons x xs ih =>
    simp only [filterE] at h
    cases hp : p x with
    | error m => rw [hp, exc_bind_err] at h; exact absurd h (by simp)
    | ok b =>
      rw [hp, exc_bind_ok] at h
      cases hrest : filterE p xs with
      | error m => rw [hrest, exc_bind_err] at h; exact absurd h (by simp)
      | ok rest =>
        rw [hrest, exc_bind_ok, exc_pure_eq_ok, Except.ok.injEq] at h
        have hx := ih hrest
        cases b with
        | true =>
          rw [if_pos rfl] at h
          subst h
          simp only [List.mem_cons, hx]
          constructor
          · rintro (rfl | ⟨hmem, hpa⟩)
            · exact ⟨Or.inl rfl, hp⟩
            · exact ⟨Or.inr hmem, hpa⟩
          · rintro ⟨rfl | hmem, hpa⟩
            · exact Or.inl rfl
            · exact Or.inr ⟨hmem, hpa⟩
        | false =>
          rw [if_neg (by simp)] at h
          subst h
          simp only [hx, List.mem_cons]
          constructor
          · rintro ⟨hmem, hpa⟩; exact ⟨Or.inr hmem, hpa⟩
          · rintro ⟨rfl | hmem, hpa⟩
            · rw [hp] at hpa; exact absurd hpa (by simp)
            · exact ⟨hmem, hpa⟩

theorem someE_eq_any {f : α → Except String Bool} {g : α → Bool}
    {l : List α} (h : ∀ a ∈ l, f a = .ok (g a)) :
    someE f l = .ok (l.any g) := by
  induction l with
  | nil => rfl
  | cons a as ih =>
    have ha : f a = .ok (g a) := h a (List.mem_cons_self a as)
    have ih' := ih (fun x hx => h x (List.mem_cons_of_mem a hx))
    simp only [someE, ha, exc_bind_ok, List.any_cons]
    cases hg : g a <;> simp [hg, ih', exc_pure_eq_ok]

theorem everyE_eq_all {f : α → Except String Bool} {g : α → Bool}
    {l : List α} (h : ∀ a ∈ l, f a = .ok (g a)) :
    everyE f l = .ok (l.all g) := by
  induction l with
  | nil => rfl
  | cons a as ih =>
    have ha : f a = .ok (g a) := h a (List.mem_cons_self a as)
    have ih' := ih (fun x hx => h x (List.mem_cons_of_mem a hx))
    simp only [everyE, ha, exc_bind_ok, List.all_cons]
    cases hg : g a <;> simp [hg, ih', exc_pure_eq_ok]

theorem mapE_eq_map {f : α → Except String β} {g : α → β}
    {l : List α} (h : ∀ a ∈ l, f a = .ok (g a)) :
    mapE f l = .ok (l.map g) := by
  induction l with
  | nil => rfl
  | cons a as ih =>
    have ha : f a = .ok (g a) := h a (List.mem_cons_self a as)
    have ih' := ih (fun x hx => h x (List.mem_cons_of_mem a hx))
    simp [mapE, ha, exc_bind_ok, ih']

/- ------------------------------------------------------------------
   The substring primitive agrees with the library's infix-of relation.
   ------------------------------------------------------------------ -/

theorem hasPref_iff (n h : List Char) : hasPref n h = true ↔ n <+: h := by
  induction n generalizing h with
  | nil => simp [hasPref]
  | cons a as ih =>
    cases h with
    | nil => simp [hasPref]
    | cons b bs =>
      simp [hasPref, ih, List.cons_prefix_cons, beq_iff_eq, Bool.and_eq_true]

theorem hasSub_iff (n h : List Char) : hasSub n h = true ↔ n <:+: h := by
  induction h with
  | nil => simp [hasSub, List.isEmpty_iff]
  | cons c rest ih =>
    simp [hasSub, Bool.or_eq_true, hasPref_iff, ih, List.infix_cons_iff]

theorem jsIncludes_iff (hay needle : String) :
    jsIncludes hay needle = true ↔ needle.data <:+: hay.data :=
  hasSub_iff needle.data hay.data

/- ------------------------------------------------------------------
   Stage-level lemmas: each filter stage is a sublist-preserving filter and
   its membership is characterized by the stage's pass condition.
   ------------------------------------------------------------------ -/

theorem filterByStartDate_sublist (o : Option Int) (l : List Experience) :
    (filterByStartDate o l).Sublist l := by
  cases o with
  | none => exact List.Sublist.refl l
  | some d => exact List.filter_sublist l

theorem mem_filterByStartDate (o : Option Int) (l : List Experience)
    (e : Experience) :
    e ∈ filterByStartDate o l ↔ e ∈ l ∧ ∀ d, o = some d → d ≤ e.startDate := by
  cases o with
  | none => simp [filterByStartDate]
  | some d => simp [filterByStartDate, List.mem_filter]

theorem filterByEndDate_sublist (o : Option Int) (l : List Experience) :
    (filterByEndDate o l).Sublist l := by
  cases o with
  | none => exact List.Sublist.refl l
  | some d => exact List.filter_sublist l

theorem mem_filterByEndDate (o : Option Int) (l : List Experience)
    (e : Experience) :
    e ∈ filterByEndDate o l ↔
      e ∈ l ∧ ∀ d, o = some d → ∀ x, e.endDate = some x → x ≤ d := by
  cases o with
  | none => simp [filterByEndDate]
  | some d =>
    simp only [filterByEndDate, List.mem_filter]
    constructor
    · rintro ⟨hmem, hb⟩
      refine ⟨hmem, ?_⟩
      rintro d' rfl' x hx
      cases rfl'
      rw [hx] at hb
      simpa using hb
    · rintro ⟨hmem, hcond⟩
      refine ⟨hmem, ?_⟩
      cases hx : e.endDate with
      | none => simp
      | some x => simpa using hcond d rfl x hx

theorem filterByTags_sublist (o : Option (List Int)) (l : List Experience) :
    (filterByTags o l).Sublist l := by
  cases o with
  | none => exact List.Sublist.refl l
  | some ids =>
    simp only [filterByTags]
    split
    · exact List.filter_sublist l
    · exact List.Sublist.refl l

theorem mem_filterByTags (o : Option (List Int)) (l : List Experience)
    (e : Experience) :
    e ∈ filterByTags o l ↔
      e ∈ l ∧ ∀ ids, o = some ids → 0 < ids.length → tagMatch e ids = true := by
  cases o with
  | none => simp [filterByTags]
  | some ids =>
    simp only [filterByTags]
    split
    · next hlen =>
      simp only [List.mem_filter]
      constructor
      · rintro ⟨hmem, hb⟩
        exact ⟨hmem, by rintro ids' rfl' _; cases rfl'; exact hb⟩
      · rintro ⟨hmem, hcond⟩
        exact ⟨hmem, hcond ids rfl hlen⟩
    · next hlen =>
      constructor
      · intro hmem
        refine ⟨hmem, ?_⟩
        rintro ids' rfl' hpos
        cases rfl'
        exact absurd hpos hlen
      · exact fun h => h.1

theorem filterByDropdowns_ok_sublist {o : Option (List (String × List String))}
    {l r : List Experience} (h : filterByDropdowns o l = .ok r) :
    r.Sublist l := by
  cases o with
  | none =>
    simp only [filterByDropdowns, exc_pure_eq_ok, Except.ok.injEq] at h
    subst h; exact List.Sublist.refl l
  | some dfs =>
    simp only [filterByDropdowns] at h
    split at h
    · exact filterE_ok_sublist h
    · simp only [exc_pure_eq_ok, Except.ok.injEq] at h
      subst h; exact List.Sublist.refl l

theorem filterByDropdowns_ok_mem {o : Option (List (String × List String))}
    {l r : List Experience} (h : filterByDropdowns o l = .ok r) (e : Experience) :
    e ∈ r ↔ e ∈ l ∧ ∀ dfs, o = some dfs → 0 < dfs.length →
      dropdownPred dfs e = .ok true := by
  cases o with
  | none =>
    simp only [filterByDropdowns, exc_pure_eq_ok, Except.ok.injEq] at h
    subst h; simp
  | some dfs =>
    simp only [filterByDropdowns] at h
    split at h
    · next hlen =>
      rw [filterE_ok_mem h e]
      constructor
      · rintro ⟨hmem, hb⟩
        exact ⟨hmem, by rintro dfs' rfl' _; cases rfl'; exact hb⟩
      · rintro ⟨hmem, hcond⟩
        exact ⟨hmem, hcond dfs rfl hlen⟩
    · next hlen =>
      simp only [exc_pure_eq_ok, Except.ok.injEq] at h
      subst h
      constructor
      · intro hmem
        refine ⟨hmem, ?_⟩
        rintro dfs' rfl' hpos
        cases rfl'
        exact absurd hpos hlen
      · exact fun hc => hc.1

theorem filterBySearchTerm_ok_sublist {o : Option String}
    {l r : List Experience} (h : filterBySearchTerm o l = .ok r) :
    r.Sublist l := by
  cases o with
  | none =>
    simp only [filterBySearchTerm, exc_pure_eq_ok, Except.ok.injEq] at h
    subst h; exact List.Sublist.refl l
  | some t =>
    simp only [filterBySearchTerm] at h
    split at h
    · simp only [exc_pure_eq_ok, Except.ok.injEq] at h
      subst h; exact List.Sublist.refl l
    · exact filterE_ok_sublist h

theorem filterBySearchTerm_ok_mem {o : Option String}
    {l r : List Experience} (h : filterBySearchTerm o l = .ok r) (e : Experience) :
    e ∈ r ↔ e ∈ l ∧ ∀ t, o = some t → t ≠ "" →
      searchTermPred (jsLower t) e = .ok true := by
  cases o with
  | none =>
    simp only [filterBySearchTerm, exc_pure_eq_ok, Except.ok.injEq] at h
    subst h; simp
  | some t =>
    simp only [filterBySearchTerm] at h
    split at h
    · next hemp =>
      simp only [exc_pure_eq_ok, Except.ok.injEq] at h
      subst h
      constructor
      · intro hmem
        refine ⟨hmem, ?_⟩
        rintro t' rfl' hne
        cases rfl'
        exact absurd hemp hne
      · exact fun hc => hc.1
    · next hemp =>
      rw [filterE_ok_mem h e]
      constructor
      · rintro ⟨hmem, hb⟩
        exact ⟨hmem, by rintro t' rfl' _; cases rfl'; exact hb⟩
      · rintro ⟨hmem, hcond⟩
        exact ⟨hmem, hcond t rfl hemp⟩

/- ------------------------------------------------------------------
   Decomposition of a successful search into the five stages.
   ------------------------------------------------------------------ -/

theorem searchExperiences_ok_elim {E : List Experience} {p : SearchParams}
    {R : List Experience} (h : searchExperiences E p = .ok R) :
    ∃ l4, filterByDropdowns p.dropdownFilters
        (filterByTags p.tagIds
          (filterByEndDate p.endDate (filterByStartDate p.startDate E))) = .ok l4 ∧
      filterBySearchTerm p.searchTerm l4 = .ok R := by
  simp only [searchExperiences] at h
  cases h4 : filterByDropdowns p.dropdownFilters
      (filterByTags p.tagIds
        (filterByEndDate p.endDate (filterByStartDate p.startDate E))) with
  | error m => rw [h4, exc_bind_err] at h; exact absurd h (by simp)
  | ok l4 =>
    rw [h4, exc_bind_ok] at h
    cases h5 : filterBySearchTerm p.searchTerm l4 with
    | error m => rw [h5, exc_bind_err] at h; exact absurd h (by simp)
    | ok l5 =>
      rw [h5, exc_bind_ok, exc_pure_eq_ok, Except.ok.injEq] at h
      subst h
      exact ⟨l4, rfl, h5⟩

theorem searchExperiences_ok_sublist {E : List Experience} {p : SearchParams}
    {R : List Experience} (h : searchExperiences E p = .ok R) :
    R.Sublist E := by
  obtain ⟨l4, h4, h5⟩ := searchExperiences_ok_elim h
  exact ((filterBySearchTerm_ok_sublist h5).trans
    (filterByDropdowns_ok_sublist h4)).trans
    (((filterByTags_sublist _ _).trans
      (filterByEndDate_sublist _ _)).trans (filterByStartDate_sublist _ _))

theorem searchExperiences_ok_mem {E : List Experience} {p : SearchParams}
    {R : List Experience} (h : searchExperiences E p = .ok R) (e : Experience) :
    e ∈ R ↔ e ∈ E ∧ ActiveStart p e ∧ ActiveEnd p e ∧ ActiveTags p e ∧
      ActiveDrop p e ∧ ActiveSearch p e := by
  obtain ⟨l4, h4, h5⟩ := searchExperiences_ok_elim h
  rw [filterBySearchTerm_ok_mem h5 e, filterByDropdowns_ok_mem h4 e,
    mem_filterByTags, mem_filterByEndDate, mem_filterByStartDate]
  simp only [ActiveStart, ActiveEnd, ActiveTags, ActiveDrop, ActiveSearch]
  tauto

/- A successful search result is what `searchOk` extracts. -/
theorem searchOk_eq {E : List Experience} {p : SearchParams}
    {R : List Experience} (h : searchExperiences E p = .ok R) :
    searchOk E p = R := by
  simp [searchOk, h, Except.toOption]

/- ------------------------------------------------------------------
   On string-shaped values the fallible predicates are total and agree with
   their Boolean forms.
   ------------------------------------------------------------------ -/

theorem wfValue_cases {v : JValue} (h : wfValue v = true) :
    v = .jnull ∨ (∃ s, v = .jstr s) ∨
      (∃ vs, v = .jarr vs ∧ ∀ x ∈ vs, ∃ s, x = .jstr s) := by
  cases v with
  | jnull => exact Or.inl rfl
  | jstr s => exact Or.inr (Or.inl ⟨s, rfl⟩)
  | jnum n => simp [wfValue, strShaped] at h
  | jbool b => simp [wfValue, strShaped] at h
  | jarr vs =>
    refine Or.inr (Or.inr ⟨vs, rfl, ?_⟩)
    intro x hx
    simp only [wfValue, strShaped, Bool.or_eq_true, List.all_eq_true] at h
    rcases h with h | h
    · have := h x hx
      cases x <;> simp at this ⊢
    · exact absurd h (by simp)

theorem lookupField_wf {fields : List (String × JValue)}
    (h : wfFields fields = true) {key : String} {v : JValue}
    (hf : lookupField fields key = some v) : wfValue v = true := by
  simp only [lookupField, Option.map_eq_some'] at hf
  obtain ⟨kv, hfind, rfl⟩ := hf
  have hmem : kv ∈ fields := List.mem_of_find?_eq_some hfind
  simp only [wfFields, List.all_eq_true] at h
  exact h kv hmem

theorem strFields_lookup {fields : List (String × JValue)}
    (h : strFields fields = true) {key : String} {v : JValue}
    (hf : lookupField fields key = some v) : strShaped v = true := by
  simp only [lookupField, Option.map_eq_some'] at hf
  obtain ⟨kv, hfind, rfl⟩ := hf
  have hmem : kv ∈ fields := List.mem_of_find?_eq_some hfind
  simp only [strFields, List.all_eq_true] at h
  exact h kv hmem

theorem dropdownMatchValue_eq_jstr (s : String) (sel : List String) :
    dropdownMatchValue (.jstr s) sel =
      .ok (sel.any (fun o => jsLower s == jsLower o)) := by
  apply someE_eq_any
  intro o _
  rfl

theorem dropdownMatchValue_eq_jarr {vs : List JValue}
    (hvs : ∀ x ∈ vs, ∃ s, x = .jstr s) (sel : List String) :
    dropdownMatchValue (.jarr vs) sel =
      .ok (sel.any (fun o =>
        (vs.map (fun x => match x with | .jstr s => jsLower s | _ => "")).contains
          (jsLower o))) := by
  apply someE_eq_any
  intro o _
  have hmap : mapE jsToLowerE vs =
      .ok (vs.map (fun x => match x with | .jstr s => jsLower s | _ => "")) := by
    apply mapE_eq_map
    intro x hx
    obtain ⟨s, rfl⟩ := hvs x hx
    rfl
  simp [hmap, exc_bind_ok, exc_pure_eq_ok]

theorem dropdownEntryCheck_eq {e : Experience}
    (h : wfFields e.customFields = true) (key : String) (sel : List String) :
    dropdownEntryCheck e key sel = .ok (entryCheckB e key sel) := by
  simp only [dropdownEntryCheck, entryCheckB]
  split
  · rfl
  · cases hf : lookupField e.customFields (jsLower key) with
    | none => rfl
    | some v =>
      have hwf := lookupField_wf h hf
      by_cases hfal : jsFalsy v = true
      · simp [hfal, exc_pure_eq_ok]
      · simp only [Bool.not_eq_true] at hfal
        rcases wfValue_cases hwf with rfl | ⟨s, rfl⟩ | ⟨vs, rfl, hvs⟩
        · simp [jsFalsy] at hfal
        · simp [hfal, dropdownMatchValue_eq_jstr]
        · simp [hfal, dropdownMatchValue_eq_jarr hvs]

theorem dropdownPred_eq {e : Experience}
    (h : wfFields e.customFields = true) (dfs : List (String × List String)) :
    dropdownPred dfs e = .ok (dropdownPredB dfs e) := by
  apply everyE_eq_all
  intro kv _
  exact dropdownEntryCheck_eq h kv.1 kv.2

theorem searchTermPred_eq {e : Experience}
    (h : wfFields e.customFields = true) (term : String) :
    searchTermPred term e = .ok (searchTermPredB term e) := by
  simp only [searchTermPred, searchTermPredB]
  have hcf : someE (fun kv =>
      if jsFalsy kv.2 then pure false
      else
        match kv.2 with
        | .jarr vs =>
          someE (fun x => do
            let s ← jsToLowerE x
            pure (jsIncludes s term)) vs
        | v => pure (jsIncludes (jsLower (jsString v)) term)) e.customFields =
      .ok (e.customFields.any (fun kv =>
        if jsFalsy kv.2 then false
        else
          match kv.2 with
          | .jarr vs =>
            vs.any (fun x =>
              jsIncludes (match x with | .jstr s => jsLower s | _ => "") term)
          | v => jsIncludes (jsLower (jsString v)) term)) := by
    apply someE_eq_any
    intro kv hkv
    have hwf : wfValue kv.2 = true := by
      simp only [wfFields, List.all_eq_true] at h
      exact h kv hkv
    by_cases hfal : jsFalsy kv.2 = true
    · simp [hfal, exc_pure_eq_ok]
    · simp only [Bool.not_eq_true] at hfal
      rcases wfValue_cases hwf with hnull | ⟨s, hs⟩ | ⟨vs, hv, hvs⟩
      · rw [hnull] at hfal; simp [jsFalsy] at hfal
      · rw [hs] at hfal ⊢; simp [hfal, exc_pure_eq_ok]
      · rw [hv] at hfal ⊢
        simp only [hfal, Bool.false_eq_true, if_false]
        apply someE_eq_any
        intro x hx
        obtain ⟨s, rfl⟩ := hvs x hx
        rfl
  rw [hcf, exc_bind_ok]
  rfl

theorem filterByDropdowns_eq_of_wf {l : List Experience}
    (hl : ∀ e ∈ l, wfFields e.customFields = true)
    (dfs : List (String × List String)) :
    filterByDropdowns (some dfs) l =
      .ok (if 0 < dfs.length then l.filter (dropdownPredB dfs) else l) := by
  simp only [filterByDropdowns]
  split
  · exact filterE_eq_filter (fun e he => dropdownPred_eq (hl e he) dfs)
  · rfl

theorem filterBySearchTerm_eq_of_wf {l : List Experience}
    (hl : ∀ e ∈ l, wfFields e.customFields = true) (t : String) :
    filterBySearchTerm (some t) l =
      .ok (if t = "" then l else l.filter (searchTermPredB (jsLower t))) := by
  simp only [filterBySearchTerm]
  split
  · rfl
  · exact filterE_eq_filter (fun e he => searchTermPred_eq (hl e he) (jsLower t))

/- ------------------------------------------------------------------
   Totality of the search on string-shaped collections, and reduction
   lemmas for single-category specifications.
   ------------------------------------------------------------------ -/

theorem searchExperiences_total {E : List Experience} {p : SearchParams}
    (h : wfExperiences E = true) : ∃ R, searchExperiences E p = .ok R := by
  have hwl : ∀ e ∈ filterByTags p.tagIds
      (filterByEndDate p.endDate (filterByStartDate p.startDate E)),
      wfFields e.customFields = true := by
    intro e he
    have hmem : e ∈ E :=
      (((filterByTags_sublist _ _).trans
        (filterByEndDate_sublist _ _)).trans (filterByStartDate_sublist _ _)).subset he
    simp only [wfExperiences, List.all_eq_true] at h
    exact h e hmem
  have h4 : ∃ l4, filterByDropdowns p.dropdownFilters
      (filterByTags p.tagIds
        (filterByEndDate p.endDate (filterByStartDate p.startDate E))) = .ok l4 := by
    cases hdf : p.dropdownFilters with
    | none => exact ⟨_, rfl⟩
    | some dfs => exact ⟨_, filterByDropdowns_eq_of_wf hwl dfs⟩
  obtain ⟨l4, h4⟩ := h4
  have hwl4 : ∀ e ∈ l4, wfFields e.customFields = true := fun e he =>
    hwl e ((filterByDropdowns_ok_sublist h4).subset he)
  have h5 : ∃ l5, filterBySearchTerm p.searchTerm l4 = .ok l5 := by
    cases hst : p.searchTerm with
    | none => exact ⟨_, rfl⟩
    | some t => exact ⟨_, filterBySearchTerm_eq_of_wf hwl4 t⟩
  obtain ⟨l5, h5⟩ := h5
  refine ⟨l5, ?_⟩
  simp only [searchExperiences]
  rw [h4, exc_bind_ok, h5, exc_bind_ok, exc_pure_eq_ok]

theorem searchExperiences_empty (E : List Experience) :
    searchExperiences E emptySpec = .ok E := rfl

theorem tagMatch_iff (e : Experience) (ids : List Int) :
    tagMatch e ids = true ↔
      ∃ ts, e.tags = some ts ∧ ∃ tg ∈ ts, tg.id ∈ ids := by
  cases ht : e.tags with
  | none => simp [tagMatch, ht]
  | some ts => simp [tagMatch, ht, List.any_eq_true, List.contains, List.elem_iff]

theorem exc_bind_pure (x : Except String α) : x >>= pure = x := by
  cases x <;> rfl

theorem search_term_only (E : List Experience) (t : String) :
    searchExperiences E { searchTerm := some t } = filterBySearchTerm (some t) E := by
  have h : searchExperiences E { searchTerm := some t } =
      filterBySearchTerm (some t) E >>= pure := rfl
  rw [h, exc_bind_pure]

theorem search_dropdown_only (E : List Experience)
    (dfs : List (String × List String)) :
    searchExperiences E { dropdownFilters := some dfs } =
      filterByDropdowns (some dfs) E := by
  have h : searchExperiences E { dropdownFilters := some dfs } =
      filterByDropdowns (some dfs) E >>= pure := rfl
  rw [h, exc_bind_pure]

/-- Claim C4: for every experience collection `E` and every filter
specification, a completed `searchExperiences` run returns a subsequence of
`E` (original order, no duplication, no mutation) containing exactly the
records that pass every active predicate category, absent categories
imposing no constraint; for the empty specification the result is `E`
itself. -/
theorem searchIsFilteringNoReorder (E : List Experience) :
    searchExperiences E emptySpec = .ok E ∧
    ∀ p R, searchExperiences E p = .ok R →
      R.Sublist E ∧ ∀ e, e ∈ R ↔ e ∈ E ∧ ActiveStart p e ∧ ActiveEnd p e ∧
        ActiveTags p e ∧ ActiveDrop p e ∧ ActiveSearch p e := by
  refine ⟨searchExperiences_empty E, ?_⟩
  intro p R h
  exact ⟨searchExperiences_ok_sublist h, searchExperiences_ok_mem h⟩

/-- Closed instance of claim C4's theorem at a concrete collection,
specification and result, every hypothesis discharged by evaluation. -/
theorem searchIsFilteringNoReorderWitness :
    [expJune].Sublist [expJune] ∧
    (expJune ∈ [expJune] ↔ expJune ∈ [expJune] ∧
      ActiveStart { startDate := some 20210101 } expJune ∧
      ActiveEnd { startDate := some 20210101 } expJune ∧
      ActiveTags { startDate := some 20210101 } expJune ∧
      ActiveDrop { startDate := some 20210101 } expJune ∧
      ActiveSearch { startDate := some 20210101 } expJune) := by
  have h := (searchIsFilteringNoReorder [expJune]).2
    { startDate := some 20210101 } [expJune] (by rfl)
  exact ⟨h.1, h.2 expJune⟩

/-- Claim C5: a non-empty `tagIds` set keeps exactly the experiences having
at least one attached tag whose id is in the set; a singleton `{t1}` keeps
exactly the records whose tag set contains `t1`, and the union of the
results for `{t1}` and `{t2}` is the result for `{t1, t2}`. -/
theorem tagFilterCharacterization (E : List Experience) (t1 t2 : Int)
    (ids : List Int) (hne : ids ≠ []) :
    searchExperiences E { tagIds := some ids } =
      .ok (searchOk E { tagIds := some ids }) ∧
    (∀ e, e ∈ searchOk E { tagIds := some ids } ↔
      e ∈ E ∧ ∃ ts, e.tags = some ts ∧ ∃ tg ∈ ts, tg.id ∈ ids) ∧
    (∀ e, e ∈ searchOk E { tagIds := some [t1] } ↔
      e ∈ E ∧ ∃ ts, e.tags = some ts ∧ ∃ tg ∈ ts, tg.id = t1) ∧
    (∀ e, e ∈ searchOk E { tagIds := some [t1, t2] } ↔
      e ∈ searchOk E { tagIds := some [t1] } ∨
        e ∈ searchOk E { tagIds := some [t2] }) := by
  have hgen : ∀ ids' : List Int, ids' ≠ [] →
      searchOk E { tagIds := some ids' } = filterByTags (some ids') E :=
    fun ids' _ => searchOk_eq rfl
  have hmem : ∀ (ids' : List Int), ids' ≠ [] → ∀ e,
      (e ∈ searchOk E { tagIds := some ids' } ↔
        e ∈ E ∧ ∃ ts, e.tags = some ts ∧ ∃ tg ∈ ts, tg.id ∈ ids') := by
    intro ids' hne' e
    rw [hgen ids' hne', mem_filterByTags]
    have hlen : 0 < ids'.length := List.length_pos.mpr hne'
    constructor
    · rintro ⟨hmem, hcond⟩
      exact ⟨hmem, (tagMatch_iff e ids').mp (hcond ids' rfl hlen)⟩
    · rintro ⟨hmem, hcond⟩
      refine ⟨hmem, ?_⟩
      rintro ids'' h'' hpos
      cases h''
      exact (tagMatch_iff e ids').mpr hcond
  have hrun : searchExperiences E { tagIds := some ids } =
      .ok (filterByTags (some ids) E) := rfl
  refine ⟨by rw [searchOk_eq hrun]; exact hrun, hmem ids hne, ?_, ?_⟩
  · intro e
    rw [hmem [t1] (by simp) e]
    simp
  · intro e
    rw [hmem [t1, t2] (by simp) e, hmem [t1] (by simp) e,
      hmem [t2] (by simp) e]
    constructor
    · rintro ⟨he, ts, hts, tg, htg, hid⟩
      rcases List.mem_cons.mp hid with h1 | h2
      · exact Or.inl ⟨he, ts, hts, tg, htg, by simp [h1]⟩
      · exact Or.inr ⟨he, ts, hts, tg, htg, h2⟩
    · rintro (⟨he, ts, hts, tg, htg, hid⟩ | ⟨he, ts, hts, tg, htg, hid⟩)
      · simp only [List.mem_singleton] at hid
        exact ⟨he, ts, hts, tg, htg, by simp [hid]⟩
      · simp only [List.mem_singleton] at hid
        exact ⟨he, ts, hts, tg, htg, by simp [hid]⟩

/-- Closed instance of claim C5's theorem with the non-emptiness hypothesis
discharged at `ids = [21]`. -/
theorem tagFilterCharacterizationWitness :
    expTag21 ∈ searchOk [expTag21, expTag22] { tagIds := some [(21 : Int)] } ↔
      expTag21 ∈ [expTag21, expTag22] ∧
        ∃ ts, expTag21.tags = some ts ∧ ∃ tg ∈ ts, tg.id ∈ [(21 : Int)] :=
  ((tagFilterCharacterization [expTag21, expTag22] 21 22 [21]
    (by simp)).2.1) expTag21

/-- Claim C6: a `startDate` bound keeps exactly the experiences starting on
or after the bound, an `endDate` bound keeps exactly those whose end date is
absent or on or before the bound (an absent end date is never excluded), and
the 2021-06-01 record is excluded by the 2021-07-01 bound but included by
the 2021-01-01 bound. -/
theorem dateBoundCharacterization (E : List Experience) (d : Int) :
    searchExperiences E { startDate := some d } =
      .ok (searchOk E { startDate := some d }) ∧
    (∀ e, e ∈ searchOk E { startDate := some d } ↔ e ∈ E ∧ d ≤ e.startDate) ∧
    searchExperiences E { endDate := some d } =
      .ok (searchOk E { endDate := some d }) ∧
    (∀ e, e ∈ searchOk E { endDate := some d } ↔
      e ∈ E ∧ ∀ x, e.endDate = some x → x ≤ d) ∧
    searchOk [expJune] { startDate := some 20210701 } = [] ∧
    searchOk [expJune] { startDate := some 20210101 } = [expJune] := by
  have hruns : searchExperiences E { startDate := some d } =
      .ok (filterByStartDate (some d) E) := rfl
  have hrune : searchExperiences E { endDate := some d } =
      .ok (filterByEndDate (some d) E) := rfl
  have hs : searchOk E { startDate := some d } = filterByStartDate (some d) E :=
    searchOk_eq hruns
  have he : searchOk E { endDate := some d } = filterByEndDate (some d) E :=
    searchOk_eq hrune
  refine ⟨by rw [hs]; exact hruns, ?_, by rw [he]; exact hrune, ?_, by rfl, by rfl⟩
  · intro e
    rw [hs, mem_filterByStartDate]
    constructor
    · rintro ⟨hmem, hcond⟩; exact ⟨hmem, hcond d rfl⟩
    · rintro ⟨hmem, hcond⟩
      exact ⟨hmem, by rintro d' h'; cases h'; exact hcond⟩
  · intro e
    rw [he, mem_filterByEndDate]
    constructor
    · rintro ⟨hmem, hcond⟩; exact ⟨hmem, hcond d rfl⟩
    · rintro ⟨hmem, hcond⟩
      exact ⟨hmem, by rintro d' h' x hx; cases h'; exact hcond x hx⟩

/-- Claim C10: a dropdown-filter entry with an empty selected-option set
imposes no constraint (the whole collection is returned), while an absent
stored value at the filtered (lower-cased) key excludes the record whenever
the selection is non-empty. -/
theorem emptyDropdownSelectionNoConstraint (E : List Experience) (k : String) :
    searchExperiences E { dropdownFilters := some [(k, [])] } = .ok E ∧
    ∀ sel e R, sel ≠ [] → e ∈ E →
      lookupField e.customFields (jsLower k) = none →
      searchExperiences E { dropdownFilters := some [(k, sel)] } = .ok R →
      e ∉ R := by
  constructor
  · calc searchExperiences E { dropdownFilters := some [(k, [])] }
        = filterByDropdowns (some [(k, [])]) E := search_dropdown_only E _
      _ = filterE (dropdownPred [(k, [])]) E := rfl
      _ = .ok (E.filter (fun _ => true)) := filterE_eq_filter (fun e _ => rfl)
      _ = .ok E := by simp
  · intro sel e R hsel hmem hlook hrun hin
    rw [search_dropdown_only] at hrun
    have hchar := (filterByDropdowns_ok_mem hrun e).mp hin
    have hpred : dropdownPred [(k, sel)] e = .ok true :=
      hchar.2 [(k, sel)] rfl (by simp)
    have hec : dropdownEntryCheck e k sel = .ok false := by
      simp [dropdownEntryCheck, hlook, List.length_eq_zero, hsel, exc_pure_eq_ok]
    have hfalse : dropdownPred [(k, sel)] e = .ok false := by
      simp [dropdownPred, everyE, hec, exc_bind_ok, exc_pure_eq_ok]
    rw [hpred] at hfalse
    exact absurd hfalse (by simp)

/-- Closed instance of claim C10's theorem: the non-empty selection `["x"]`
and the record with no `skills` field, every hypothesis evaluated. -/
theorem emptyDropdownSelectionNoConstraintWitness :
    (["x"] : List String) ≠ [] ∧ expJune ∉ ([] : List Experience) :=
  ⟨by simp,
    (emptyDropdownSelectionNoConstraint [expJune] "skills").2 ["x"] expJune []
      (by simp) (by simp) (by rfl) (by rfl)⟩

/- ------------------------------------------------------------------
   Column-key generation.
   ------------------------------------------------------------------ -/

theorem isLowerAlnum_not_ws (c : Char) (h : isLowerAlnum c = true) :
    c.isWhitespace = false := by
  by_contra hw
  simp only [Bool.not_eq_false] at hw
  simp only [Char.isWhitespace, Bool.or_eq_true, decide_eq_true_eq] at hw
  rcases hw with ((rfl | rfl) | rfl) | rfl <;> exact absurd h (by decide)

theorem dropWhile_eq_self_of_all {l : List Char}
    (h : ∀ c ∈ l, c.isWhitespace = false) :
    l.dropWhile Char.isWhitespace = l := by
  cases l with
  | nil => rfl
  | cons c cs =>
    rw [List.dropWhile_cons, if_neg]
    simp [h c (List.mem_cons_self c cs)]

theorem jsTrim_eq_self {l : List Char} (h : ∀ c ∈ l, c.isWhitespace = false) :
    jsTrim l = l := by
  unfold jsTrim
  rw [dropWhile_eq_self_of_all h,
    dropWhile_eq_self_of_all (fun c hc => h c (List.mem_reverse.mp hc)),
    List.reverse_reverse]

/-- Claim C7: `generateColumnKey` lower-cases the name, strips every
character outside `[a-z0-9]` and trims whitespace; since the stripped string
can hold no whitespace, the result is exactly the stripped lower-cased
string.  `"Client Name!!"` gives `"clientname"`, `"  Foo_Bar "` gives
`"foobar"`. -/
theorem generateColumnKeyCharacterization (s : String) :
    generateColumnKey s = String.mk (jsTrim ((jsLower s).data.filter isLowerAlnum)) ∧
    generateColumnKey s = String.mk ((jsLower s).data.filter isLowerAlnum) ∧
    generateColumnKey "Client Name!!" = "clientname" ∧
    generateColumnKey "  Foo_Bar " = "foobar" := by
  refine ⟨rfl, ?_, by rfl, by rfl⟩
  have h : ∀ c ∈ (jsLower s).data.filter isLowerAlnum, c.isWhitespace = false :=
    fun c hc => isLowerAlnum_not_ws c (List.of_mem_filter hc)
  simp [generateColumnKey, jsTrim_eq_self h]

/- ------------------------------------------------------------------
   Claim-level characterization of one dropdown-filter entry on
   string-shaped values.
   ------------------------------------------------------------------ -/

theorem entryCheckB_iff {e : Experience} (h : wfFields e.customFields = true)
    (k : String) (sel : List String) :
    entryCheckB e k sel = true ↔ (sel ≠ [] →
      ∃ v, lookupField e.customFields (jsLower k) = some v ∧
        ((∃ s, v = .jstr s ∧ s ≠ "" ∧ ∃ o ∈ sel, jsLower s = jsLower o) ∨
         (∃ vs, v = .jarr vs ∧ ∃ x ∈ vs, ∃ s, x = .jstr s ∧
           ∃ o ∈ sel, jsLower s = jsLower o))) := by
  simp only [entryCheckB]
  split
  · next hlen =>
    have hnil : sel = [] := List.length_eq_zero.mp hlen
    subst hnil
    simp
  · next hlen =>
    have hne : sel ≠ [] := fun hh => hlen (by simp [hh])
    split
    · next hf => simp [hf, hne]
    · next v hf =>
      rw [hf]
      have hwf := lookupField_wf h hf
      rcases wfValue_cases hwf with rfl | ⟨s, rfl⟩ | ⟨vs, rfl, hvs⟩
      · rw [if_pos (by simp [jsFalsy])]
        constructor
        · intro hfalse; exact absurd hfalse (by simp)
        · intro hcond
          obtain ⟨v', hv', hdisj⟩ := hcond hne
          injection hv' with hv'
          rcases hdisj with ⟨s', hs', _⟩ | ⟨vs', hvs', _⟩
          · rw [← hv'] at hs'; exact JValue.noConfusion hs'
          · rw [← hv'] at hvs'; exact JValue.noConfusion hvs'
      · by_cases hs0 : s = ""
        · subst hs0
          rw [if_pos (by simp [jsFalsy])]
          constructor
          · intro hfalse; exact absurd hfalse (by simp)
          · intro hcond
            obtain ⟨v', hv', hdisj⟩ := hcond hne
            injection hv' with hv'
            rcases hdisj with ⟨s', hs', hs'0, _⟩ | ⟨vs', hvs', _⟩
            · rw [← hv'] at hs'
              injection hs' with hs'
              exact absurd hs'.symm hs'0
            · rw [← hv'] at hvs'; exact JValue.noConfusion hvs'
        · rw [if_neg (by simp [jsFalsy, hs0])]
          constructor
          · intro hany
            intro _
            refine ⟨.jstr s, rfl, Or.inl ⟨s, rfl, hs0, ?_⟩⟩
            obtain ⟨o, ho, hbeq⟩ := List.any_eq_true.mp hany
            exact ⟨o, ho, eq_of_beq hbeq⟩
          · intro hcond
            obtain ⟨v', hv', hdisj⟩ := hcond hne
            injection hv' with hv'
            rcases hdisj with ⟨s', hs', _, o, ho, heq⟩ | ⟨vs', hvs', _⟩
            · rw [← hv'] at hs'
              injection hs' with hs'
              subst hs'
              exact List.any_eq_true.mpr ⟨o, ho, beq_iff_eq.mpr heq⟩
            · rw [← hv'] at hvs'; exact JValue.noConfusion hvs'
      · rw [if_neg (by simp [jsFalsy])]
        constructor
        · intro hany
          intro _
          obtain ⟨o, ho, hcon⟩ := List.any_eq_true.mp hany
          obtain ⟨x, hx, hfx⟩ := List.mem_map.mp (List.elem_iff.mp hcon)
          obtain ⟨s, rfl⟩ := hvs x hx
          exact ⟨.jarr vs, rfl, Or.inr ⟨vs, rfl, .jstr s, hx, s, rfl, o, ho, hfx⟩⟩
        · intro hcond
          obtain ⟨v', hv', hdisj⟩ := hcond hne
          injection hv' with hv'
          rcases hdisj with ⟨s', hs', _⟩ | ⟨vs', hvs', x, hx, s, hxs, o, ho, heq⟩
          · rw [← hv'] at hs'; exact JValue.noConfusion hs'
          · rw [← hv'] at hvs'
            injection hvs' with hvs'
            subst hvs'
            refine List.any_eq_true.mpr ⟨o, ho, List.elem_iff.mpr ?_⟩
            refine List.mem_map.mpr ⟨x, hx, ?_⟩
            rw [hxs]
            exact heq

/-- Claim C1 counterexample: the stored custom-field value at the filter's
own column key "Skills" is ["React"] and intersects the selected set
["React"], so the claim requires the record to be kept; the code looks the
value up at the lower-cased key "skills", finds nothing and drops the
record. -/
theorem dropdownFilterKeyCaseCounterexample :
    searchExperiences [expUpperKey]
      { dropdownFilters := some [("Skills", ["React"])] } = .ok [] ∧
    lookupField expUpperKey.customFields "Skills" =
      some (.jarr [.jstr "React"]) ∧
    ("React" : String) ∈ ["React"] :=
  ⟨rfl, rfl, by simp⟩

/-- Claim C1 (amended): over collections whose custom-field values are
string-shaped, a `dropdownFilters` specification keeps exactly the
experiences where, for each entry with a non-empty selected set, the value
stored at the LOWER-CASED column key matches case-insensitively (non-empty
scalar equal to a selected option, or sequence intersecting the selection;
absent or empty values exclude); entries combine with AND, and the spec's
skills scenario returns only the first record. -/
theorem dropdownFiltersCharacterization (E : List Experience)
    (dfs : List (String × List String)) (h : wfExperiences E = true) :
    searchExperiences E { dropdownFilters := some dfs } =
      .ok (searchOk E { dropdownFilters := some dfs }) ∧
    (∀ e, e ∈ searchOk E { dropdownFilters := some dfs } ↔
      e ∈ E ∧ ∀ k sel, (k, sel) ∈ dfs → sel ≠ [] →
        ∃ v, lookupField e.customFields (jsLower k) = some v ∧
          ((∃ s, v = .jstr s ∧ s ≠ "" ∧ ∃ o ∈ sel, jsLower s = jsLower o) ∨
           (∃ vs, v = .jarr vs ∧ ∃ x ∈ vs, ∃ s, x = .jstr s ∧
             ∃ o ∈ sel, jsLower s = jsLower o))) ∧
    searchExperiences [expReact, expPython]
      { dropdownFilters := some [("skills", ["React"])] } = .ok [expReact] := by
  have hwE : ∀ e ∈ E, wfFields e.customFields = true := by
    intro e he
    simp only [wfExperiences, List.all_eq_true] at h
    exact h e he
  have hrun : searchExperiences E { dropdownFilters := some dfs } =
      .ok (if 0 < dfs.length then E.filter (dropdownPredB dfs) else E) := by
    rw [search_dropdown_only]
    exact filterByDropdowns_eq_of_wf hwE dfs
  have hOk : searchOk E { dropdownFilters := some dfs } =
      (if 0 < dfs.length then E.filter (dropdownPredB dfs) else E) :=
    searchOk_eq hrun
  refine ⟨by rw [hOk]; exact hrun, ?_, by rfl⟩
  intro e
  rw [hOk]
  by_cases hlen : 0 < dfs.length
  · rw [if_pos hlen, List.mem_filter]
    constructor
    · rintro ⟨hmem, hpred⟩
      refine ⟨hmem, ?_⟩
      intro k sel hksel hne
      simp only [dropdownPredB, List.all_eq_true] at hpred
      have hb := hpred (k, sel) hksel
      exact (entryCheckB_iff (hwE e hmem) k sel).mp hb hne
    · rintro ⟨hmem, hcond⟩
      refine ⟨hmem, ?_⟩
      simp only [dropdownPredB, List.all_eq_true]
      intro kv hkv
      refine (entryCheckB_iff (hwE e hmem) kv.1 kv.2).mpr ?_
      intro hne
      exact hcond kv.1 kv.2 hkv hne
  · rw [if_neg hlen]
    have hdfs : dfs = [] := by
      cases dfs with
      | nil => rfl
      | cons a as => exact absurd (by simp) hlen
    subst hdfs
    simp

/-- Closed instance of claim C1's amended theorem at the spec scenario, the
well-shapedness hypothesis discharged by evaluation. -/
theorem dropdownFiltersCharacterizationWitness :
    wfExperiences [expReact, expPython] = true ∧
    (expReact ∈ searchOk [expReact, expPython]
        { dropdownFilters := some [("skills", ["React"])] } ↔
      expReact ∈ [expReact, expPython] ∧
        ∀ k sel, (k, sel) ∈ [("skills", ["React"])] → sel ≠ [] →
          ∃ v, lookupField expReact.customFields (jsLower k) = some v ∧
            ((∃ s, v = .jstr s ∧ s ≠ "" ∧ ∃ o ∈ sel, jsLower s = jsLower o) ∨
             (∃ vs, v = .jarr vs ∧ ∃ x ∈ vs, ∃ s, x = .jstr s ∧
               ∃ o ∈ sel, jsLower s = jsLower o))) :=
  ⟨rfl, (dropdownFiltersCharacterization [expReact, expPython]
    [("skills", ["React"])] rfl).2.1 expReact⟩

/- ------------------------------------------------------------------
   Claim-level characterization of the search-term predicate on
   string-shaped values.
   ------------------------------------------------------------------ -/

theorem strShaped_cases {v : JValue} (h : strShaped v = true) :
    (∃ s, v = .jstr s) ∨ (∃ vs, v = .jarr vs ∧ ∀ x ∈ vs, ∃ s, x = .jstr s) := by
  cases v with
  | jstr s => exact Or.inl ⟨s, rfl⟩
  | jarr vs =>
    refine Or.inr ⟨vs, rfl, ?_⟩
    intro x hx
    simp only [strShaped, List.all_eq_true] at h
    have := h x hx
    cases x <;> simp at this ⊢
  | jnull => simp [strShaped] at h
  | jnum n => simp [strShaped] at h
  | jbool b => simp [strShaped] at h

theorem strShaped_wf {v : JValue} (h : strShaped v = true) : wfValue v = true := by
  simp [wfValue, h]

theorem strFields_wf {fields : List (String × JValue)}
    (h : strFields fields = true) : wfFields fields = true := by
  simp only [strFields, List.all_eq_true] at h
  simp only [wfFields, List.all_eq_true]
  exact fun kv hkv => strShaped_wf (h kv hkv)

theorem data_ne_nil_of_ne_empty {t : String} (ht : t ≠ "") : t.data ≠ [] := by
  intro hd
  apply ht
  cases t with
  | mk data =>
    simp only at hd
    rw [hd]

theorem jsLower_data_ne_nil {t : String} (ht : t ≠ "") :
    (jsLower t).data ≠ [] := by
  intro hd
  exact data_ne_nil_of_ne_empty ht (by simpa [jsLower] using hd)

theorem searchTermPredB_iff {e : Experience} (h : strFields e.customFields = true)
    {term : String} (hterm : term.data ≠ []) :
    searchTermPredB term e = true ↔
      ((∃ kv ∈ e.customFields,
          (∃ s, kv.2 = .jstr s ∧ term.data <:+: (jsLower s).data) ∨
          (∃ vs, kv.2 = .jarr vs ∧ ∃ x ∈ vs, ∃ s, x = .jstr s ∧
            term.data <:+: (jsLower s).data)) ∨
       (∃ ts, e.tags = some ts ∧ ∃ tg ∈ ts,
         term.data <:+: (jsLower tg.name).data)) := by
  simp only [searchTermPredB, Bool.or_eq_true]
  apply or_congr
  · rw [List.any_eq_true]
    constructor
    · rintro ⟨kv, hkv, hb⟩
      refine ⟨kv, hkv, ?_⟩
      have hsh : strShaped kv.2 = true := by
        simp only [strFields, List.all_eq_true] at h
        exact h kv hkv
      rcases strShaped_cases hsh with ⟨s, hv⟩ | ⟨vs, hv, hvs⟩
      · rw [hv] at hb
        by_cases hs0 : s = ""
        · subst hs0
          rw [if_pos (by simp [jsFalsy])] at hb
          exact absurd hb (by simp)
        · rw [if_neg (by simp [jsFalsy, hs0])] at hb
          have hinc : jsIncludes (jsLower (jsString (.jstr s))) term = true := hb
          exact Or.inl ⟨s, hv, (jsIncludes_iff _ _).mp hinc⟩
      · rw [hv] at hb
        rw [if_neg (by simp [jsFalsy])] at hb
        have hany : vs.any (fun x =>
            jsIncludes (match x with | .jstr s => jsLower s | _ => "") term)
              = true := hb
        obtain ⟨x, hx, hinc⟩ := List.any_eq_true.mp hany
        obtain ⟨s, rfl⟩ := hvs x hx
        refine Or.inr ⟨vs, hv, .jstr s, hx, s, rfl, ?_⟩
        exact (jsIncludes_iff _ _).mp hinc
    · rintro ⟨kv, hkv, hdisj⟩
      refine ⟨kv, hkv, ?_⟩
      rcases hdisj with ⟨s, hv, hinf⟩ | ⟨vs, hv, x, hx, s, hxs, hinf⟩
      · rw [hv]
        have hs0 : s ≠ "" := by
          intro hs0
          subst hs0
          have : term.data = [] := by simpa [jsLower] using List.infix_nil.mp hinf
          exact hterm this
        rw [if_neg (by simp [jsFalsy, hs0])]
        exact (jsIncludes_iff (jsLower (jsString (.jstr s))) term).mpr hinf
      · rw [hv]
        rw [if_neg (by simp [jsFalsy])]
        have : vs.any (fun x =>
            jsIncludes (match x with | .jstr s => jsLower s | _ => "") term)
              = true := by
          refine List.any_eq_true.mpr ⟨x, hx, ?_⟩
          rw [hxs]
          exact (jsIncludes_iff (jsLower s) term).mpr hinf
        exact this
  · cases htags : e.tags with
    | none => simp
    | some ts =>
      simp only [Option.some.injEq]
      rw [List.any_eq_true]
      constructor
      · rintro ⟨tg, htg, hinc⟩
        exact ⟨ts, rfl, tg, htg, (jsIncludes_iff _ _).mp hinc⟩
      · rintro ⟨ts', hts', tg, htg, hinf⟩
        cases hts'
        exact ⟨tg, htg, (jsIncludes_iff _ _).mpr hinf⟩

/-- Claim C2 counterexample: the record stores the numeric custom-field
value 0, whose stringification "0" contains the search term "0", so the
claim requires it to be kept; the code skips falsy values and drops the
record. -/
theorem searchTermFalsyScalarCounterexample :
    searchExperiences [expZeroField] { searchTerm := some "0" } = .ok [] ∧
    jsString (.jnum 0) = "0" ∧
    jsIncludes (jsLower (jsString (.jnum 0))) (jsLower "0") = true :=
  ⟨rfl, rfl, rfl⟩

/-- Claim C2 (amended): over collections whose custom-field values are
strings or arrays of strings, and for a non-empty search term, the search
keeps exactly the experiences where the lower-cased term occurs as a
substring of the lower-cased value of some scalar custom field, of some
array-element custom-field value, or of some attached tag's name; searching
"react" matches a field valued "React" and a tag named "REACT". -/
theorem searchTermCharacterization (E : List Experience) (t : String)
    (h : strExperiences E = true) (ht : t ≠ "") :
    searchExperiences E { searchTerm := some t } =
      .ok (searchOk E { searchTerm := some t }) ∧
    (∀ e, e ∈ searchOk E { searchTerm := some t } ↔
      e ∈ E ∧
        ((∃ kv ∈ e.customFields,
            (∃ s, kv.2 = .jstr s ∧ (jsLower t).data <:+: (jsLower s).data) ∨
            (∃ vs, kv.2 = .jarr vs ∧ ∃ x ∈ vs, ∃ s, x = .jstr s ∧
              (jsLower t).data <:+: (jsLower s).data)) ∨
         (∃ ts, e.tags = some ts ∧ ∃ tg ∈ ts,
           (jsLower t).data <:+: (jsLower tg.name).data))) ∧
    searchExperiences [expReact, expTagReact, expPython]
      { searchTerm := some "react" } = .ok [expReact, expTagReact] := by
  have hstr : ∀ e ∈ E, strFields e.customFields = true := by
    intro e he
    simp only [strExperiences, List.all_eq_true] at h
    exact h e he
  have hwE : ∀ e ∈ E, wfFields e.customFields = true :=
    fun e he => strFields_wf (hstr e he)
  have hrun : searchExperiences E { searchTerm := some t } =
      .ok (if t = "" then E else E.filter (searchTermPredB (jsLower t))) := by
    rw [search_term_only]
    exact filterBySearchTerm_eq_of_wf hwE t
  rw [if_neg ht] at hrun
  have hOk : searchOk E { searchTerm := some t } =
      E.filter (searchTermPredB (jsLower t)) := searchOk_eq hrun
  refine ⟨by rw [hOk]; exact hrun, ?_, by rfl⟩
  intro e
  rw [hOk, List.mem_filter]
  constructor
  · rintro ⟨hmem, hb⟩
    exact ⟨hmem,
      (searchTermPredB_iff (hstr e hmem) (jsLower_data_ne_nil ht)).mp hb⟩
  · rintro ⟨hmem, hcond⟩
    exact ⟨hmem,
      (searchTermPredB_iff (hstr e hmem) (jsLower_data_ne_nil ht)).mpr hcond⟩

/-- Closed instance of claim C2's amended theorem at the record whose field
holds "React", hypotheses discharged by evaluation. -/
theorem searchTermCharacterizationWitness :
    strExperiences [expReact, expTagReact] = true ∧ ("react" : String) ≠ "" ∧
    (expReact ∈ searchOk [expReact, expTagReact] { searchTerm := some "react" } ↔
      expReact ∈ [expReact, expTagReact] ∧
        ((∃ kv ∈ expReact.customFields,
            (∃ s, kv.2 = .jstr s ∧
              (jsLower "react").data <:+: (jsLower s).data) ∨
            (∃ vs, kv.2 = .jarr vs ∧ ∃ x ∈ vs, ∃ s, x = .jstr s ∧
              (jsLower "react").data <:+: (jsLower s).data)) ∨
         (∃ ts, expReact.tags = some ts ∧ ∃ tg ∈ ts,
           (jsLower "react").data <:+: (jsLower tg.name).data))) :=
  ⟨rfl, by simp,
    (searchTermCharacterization [expReact, expTagReact] "react" rfl
      (by simp)).2.1 expReact⟩

/-- Claim C3 counterexample: with a numeric custom-field value 42 and an
active dropdown filter the engine calls `.toLowerCase()` on the number and
raises a TypeError instead of completing; an array holding a number fails
the same way under a search term. -/
theorem searchThrowsOnNonStringCounterexample :
    searchExperiences [expNumField]
      { dropdownFilters := some [("a", ["x"])] } =
      .error "TypeError: toLowerCase is not a function" ∧
    searchExperiences
      [{ id := 10, startDate := 0, endDate := none,
         customFields := [("a", .jarr [.jnum 1])], tags := some [] }]
      { searchTerm := some "x" } =
      .error "TypeError: toLowerCase is not a function" :=
  ⟨rfl, rfl⟩

/-- Claim C3 (amended): over collections whose custom-field values are
strings, arrays of strings, or null, `searchExperiences` completes without
raising an error for every specification; missing optional fields
deactivate their predicate (the empty specification returns the input), and
a scalar value where a sequence might be expected goes through the
scalar-equality check. -/
theorem searchTotalOnStringShapedFields (E : List Experience)
    (p : SearchParams) (h : wfExperiences E = true) :
    (∃ R, searchExperiences E p = .ok R) ∧
    searchExperiences E emptySpec = .ok E ∧
    (∀ s sel, dropdownMatchValue (.jstr s) sel =
      .ok (sel.any (fun o => jsLower s == jsLower o))) :=
  ⟨searchExperiences_total h, searchExperiences_empty E,
    fun s sel => dropdownMatchValue_eq_jstr s sel⟩

/-- Closed instance of claim C3's amended theorem, the well-shapedness
hypothesis discharged by evaluation. -/
theorem searchTotalOnStringShapedFieldsWitness :
    wfExperiences [expReact, expPython] = true ∧
    ((∃ R, searchExperiences [expReact, expPython]
        { searchTerm := some "x", dropdownFilters := some [("skills", ["React"])] } =
          .ok R) ∧
     searchExperiences [expReact, expPython] emptySpec = .ok [expReact, expPython] ∧
     (∀ s sel, dropdownMatchValue (.jstr s) sel =
       .ok (sel.any (fun o => jsLower s == jsLower o)))) :=
  ⟨rfl, searchTotalOnStringShapedFields [expReact, expPython]
    { searchTerm := some "x", dropdownFilters := some [("skills", ["React"])] } rfl⟩

/- ------------------------------------------------------------------
   MemStorage versus DatabaseStorage.
   ------------------------------------------------------------------ -/

theorem memTagMatch_eq (e : Experience) (ids : List Int) :
    memTagMatch e ids = tagMatch e ids := by
  cases ht : e.tags with
  | none => simp [memTagMatch, tagMatch, ht]
  | some ts =>
    simp only [memTagMatch, tagMatch, ht]
    have hiff : (ids.any fun tid => ts.any fun tg => tg.id == tid) = true ↔
        (ts.any fun tg => ids.contains tg.id) = true := by
      simp only [List.any_eq_true, beq_iff_eq]
      constructor
      · rintro ⟨tid, htid, tg, htg, heq⟩
        exact ⟨tg, htg, List.elem_iff.mpr (heq ▸ htid)⟩
      · rintro ⟨tg, htg, hcon⟩
        exact ⟨tg.id, List.elem_iff.mp hcon, tg, htg, rfl⟩
    cases hb : (ids.any fun tid => ts.any fun tg => tg.id == tid) with
    | true => exact (hiff.mp hb).symm
    | false =>
      cases hb2 : (ts.any fun tg => ids.contains tg.id) with
      | true =>
        have hcontra := hiff.mpr hb2
        rw [hb] at hcontra
        exact absurd hcontra (by simp)
      | false => rfl

theorem scalarStr_lookup_all {fields : List (String × JValue)}
    (h : scalarStrFields fields = true) :
    ∀ kv ∈ fields, ∃ s, kv.2 = .jstr s := by
  intro kv hkv
  simp only [scalarStrFields, List.all_eq_true] at h
  have := h kv hkv
  cases hv : kv.2 <;> rw [hv] at this <;> simp at this ⊢

theorem searchTermPred_eq_mem {e : Experience}
    (h : scalarStrFields e.customFields = true) (term : String) :
    searchTermPred term e = .ok (memSearchTermMatch e term) := by
  simp only [searchTermPred, memSearchTermMatch, memCustomFieldsMatch]
  have hcf : someE (fun kv =>
      if jsFalsy kv.2 then pure false
      else
        match kv.2 with
        | .jarr vs =>
          someE (fun x => do
            let s ← jsToLowerE x
            pure (jsIncludes s term)) vs
        | v => pure (jsIncludes (jsLower (jsString v)) term)) e.customFields =
      .ok (e.customFields.any (fun kv =>
        if jsFalsy kv.2 then false
        else
          match kv.2 with
          | .jstr s => jsIncludes (jsLower s) term
          | _ => false)) := by
    apply someE_eq_any
    intro kv hkv
    obtain ⟨s, hs⟩ := scalarStr_lookup_all h kv hkv
    rw [hs]
    by_cases hf : jsFalsy (.jstr s) = true
    · rw [if_pos hf, if_pos hf]
      exact rfl
    · rw [if_neg hf, if_neg hf]
      rfl
  rw [hcf, exc_bind_ok]
  rfl

/-- Claim C9 counterexample: on the shared restricted specification
(searchTerm only), the record whose custom field holds the array ["React"]
is dropped by MemStorage (which only matches string-typed values) but kept
by DatabaseStorage (which matches array elements). -/
theorem memDbSearchDivergenceCounterexample :
    memSearchExperiences [expReact] { searchTerm := some "react" } = [] ∧
    searchExperiences [expReact] { searchTerm := some "react" } =
      .ok [expReact] :=
  ⟨rfl, rfl⟩

/-- Claim C9 (amended): over materialized collections whose custom-field
values are all string scalars, and for specifications restricted to the
fields both implementations accept (startDate, endDate, tagIds,
searchTerm), MemStorage and DatabaseStorage searchExperiences return the
same sequence. -/
theorem memDbSearchAgreementOnStringFields (E : List Experience)
    (sd ed : Option Int) (tids : Option (List Int)) (st : Option String)
    (h : scalarStrExperiences E = true) :
    searchExperiences E
        { startDate := sd, endDate := ed, tagIds := tids,
          searchTerm := st, dropdownFilters := none } =
      .ok (memSearchExperiences E
        { startDate := sd, endDate := ed, tagIds := tids, searchTerm := st }) := by
  have hstr : ∀ e ∈ E, scalarStrFields e.customFields = true := by
    intro e he
    simp only [scalarStrExperiences, List.all_eq_true] at h
    exact h e he
  have hstage5 : ∀ (l : List Experience),
      (∀ e ∈ l, scalarStrFields e.customFields = true) → ∀ t : String,
      filterBySearchTerm (some t) l =
        .ok (if t = "" then l
          else l.filter (fun e => memSearchTermMatch e (jsLower t))) := by
    intro l hl t
    simp only [filterBySearchTerm]
    by_cases hteq : t = ""
    · rw [if_pos hteq, if_pos hteq]
      exact rfl
    · rw [if_neg hteq, if_neg hteq]
      exact filterE_eq_filter
        (fun e he => searchTermPred_eq_mem (hl e he) (jsLower t))
  have h0 : searchExperiences E
      { startDate := sd, endDate := ed, tagIds := tids,
        searchTerm := st, dropdownFilters := none } =
      filterBySearchTerm st
        (filterByTags tids (filterByEndDate ed (filterByStartDate sd E))) >>=
          pure := rfl
  rw [h0, exc_bind_pure]
  have hl2str : ∀ e ∈ filterByEndDate ed (filterByStartDate sd E),
      scalarStrFields e.customFields = true := by
    intro e he
    apply hstr
    exact ((filterByEndDate_sublist _ _).trans
      (filterByStartDate_sublist _ _)).subset he
  cases tids with
  | none =>
    cases st with
    | none => rfl
    | some t =>
      have hmemdef : memSearchExperiences E
          { startDate := sd, endDate := ed, tagIds := none,
            searchTerm := some t } =
          (if t = "" then filterByEndDate ed (filterByStartDate sd E)
            else (filterByEndDate ed (filterByStartDate sd E)).filter
              (fun e => memSearchTermMatch e (jsLower t))) := rfl
      rw [hmemdef]
      exact hstage5 _ hl2str t
  | some ids =>
    have h3 : (if 0 < ids.length then
        (filterByEndDate ed (filterByStartDate sd E)).filter
          (fun e => memTagMatch e ids)
      else filterByEndDate ed (filterByStartDate sd E)) =
        filterByTags (some ids) (filterByEndDate ed (filterByStartDate sd E)) := by
      simp only [filterByTags, memTagMatch_eq]
    have hl3str : ∀ e ∈ filterByTags (some ids)
        (filterByEndDate ed (filterByStartDate sd E)),
        scalarStrFields e.customFields = true := by
      intro e he
      exact hl2str e ((filterByTags_sublist _ _).subset he)
    cases st with
    | none =>
      have hmemdef : memSearchExperiences E
          { startDate := sd, endDate := ed, tagIds := some ids,
            searchTerm := none } =
          (if 0 < ids.length then
            (filterByEndDate ed (filterByStartDate sd E)).filter
              (fun e => memTagMatch e ids)
          else filterByEndDate ed (filterByStartDate sd E)) := rfl
      rw [hmemdef, h3]
      rfl
    | some t =>
      have hmemdef : memSearchExperiences E
          { startDate := sd, endDate := ed, tagIds := some ids,
            searchTerm := some t } =
          (if t = "" then
            (if 0 < ids.length then
              (filterByEndDate ed (filterByStartDate sd E)).filter
                (fun e => memTagMatch e ids)
            else filterByEndDate ed (filterByStartDate sd E))
          else
            (if 0 < ids.length then
              (filterByEndDate ed (filterByStartDate sd E)).filter
                (fun e => memTagMatch e ids)
            else filterByEndDate ed (filterByStartDate sd E)).filter
              (fun e => memSearchTermMatch e (jsLower t))) := rfl
      rw [hmemdef, h3]
      exact hstage5 _ hl3str t

/-- Closed instance of claim C9's amended theorem, the scalar-string
hypothesis discharged by evaluation. -/
theorem memDbSearchAgreementWitness :
    scalarStrExperiences [expTag21, expTag22] = true ∧
    searchExperiences [expTag21, expTag22]
        { startDate := none, endDate := none, tagIds := some [21],
          searchTerm := some "t21", dropdownFilters := none } =
      .ok (memSearchExperiences [expTag21, expTag22]
        { startDate := none, endDate := none, tagIds := some [21],
          searchTerm := some "t21" }) :=
  ⟨rfl, memDbSearchAgreementOnStringFields [expTag21, expTag22]
    none none (some [21]) (some "t21") rfl⟩

/- ------------------------------------------------------------------
   Column moves.
   ------------------------------------------------------------------ -/

theorem jsFindIndex_eq {cols : List Column} {i : Nat} {c : Column}
    (hnd : (cols.map (fun x => x.id)).Nodup)
    (hget : cols[i]? = some c) :
    jsFindIndex (fun x => x.id == c.id) cols = some i := by
  induction cols generalizing i with
  | nil => simp at hget
  | cons a as ih =>
    cases i with
    | zero =>
      rw [List.getElem?_cons_zero, Option.some.injEq] at hget
      subst hget
      simp [jsFindIndex]
    | succ n =>
      rw [List.getElem?_cons_succ] at hget
      have hc : c ∈ as := List.getElem?_mem hget
      simp only [List.map_cons, List.nodup_cons] at hnd
      have hne : (a.id == c.id) = false := by
        simp only [beq_eq_false_iff_ne, ne_eq]
        intro heq
        exact hnd.1 (heq ▸ List.mem_map.mpr ⟨c, hc, rfl⟩)
      simp [jsFindIndex, hne, ih hnd.2 hget]

theorem updateColumnOrder_getElem (cols : List Column) (cid o : Int) (m : Nat) :
    (updateColumnOrder cols cid o)[m]? =
      (cols[m]?).map (fun c => if c.id = cid then { c with order := o } else c) := by
  simp [updateColumnOrder]

theorem nodup_ids_ne {cols : List Column}
    (hnd : (cols.map (fun c => c.id)).Nodup) {m n : Nat} {c d : Column}
    (hm : cols[m]? = some c) (hn : cols[n]? = some d) (hmn : m ≠ n) :
    c.id ≠ d.id := by
  intro heq
  apply hmn
  have hm' : (cols.map (fun c => c.id))[m]? = some c.id := by
    rw [List.getElem?_map, hm]; rfl
  have hn' : (cols.map (fun c => c.id))[n]? = some d.id := by
    rw [List.getElem?_map, hn]; rfl
  have hmlen : m < (cols.map (fun c => c.id)).length := by
    rcases List.getElem?_eq_some.mp hm' with ⟨hh, _⟩
    exact hh
  apply List.getElem?_inj hmlen hnd
  rw [hm', hn', heq]

/-- Claim C8: on a list of columns sorted by `order` with pairwise-distinct
ids, moving the column at position j+1 up (or the column at position j
down) exchanges the `order` values of exactly those two adjacent columns,
leaving every other column and every non-order field untouched; moving the
first column up or the last column down changes nothing. -/
theorem moveColumnSwapCharacterization (cols : List Column) (j : Nat)
    (a b : Column)
    (_hsorted : List.Sorted (fun x y : Column => x.order ≤ y.order) cols)
    (hnd : (cols.map (fun c => c.id)).Nodup)
    (ha : cols[j]? = some a) (hb : cols[j + 1]? = some b) :
    ((moveColumnUp cols b).length = cols.length ∧
     (moveColumnUp cols b)[j]? = some { a with order := b.order } ∧
     (moveColumnUp cols b)[j + 1]? = some { b with order := a.order } ∧
     ∀ m, m ≠ j → m ≠ j + 1 → (moveColumnUp cols b)[m]? = cols[m]?) ∧
    ((moveColumnDown cols a).length = cols.length ∧
     (moveColumnDown cols a)[j]? = some { a with order := b.order } ∧
     (moveColumnDown cols a)[j + 1]? = some { b with order := a.order } ∧
     ∀ m, m ≠ j → m ≠ j + 1 → (moveColumnDown cols a)[m]? = cols[m]?) ∧
    (∀ c0, cols[0]? = some c0 → moveColumnUp cols c0 = cols) ∧
    (∀ cl, cols[cols.length - 1]? = some cl → moveColumnDown cols cl = cols) := by
  have hab : a.id ≠ b.id := nodup_ids_ne hnd ha hb (by omega)
  have hup : moveColumnUp cols b =
      updateColumnOrder (updateColumnOrder cols b.id a.order) a.id b.order := by
    simp only [moveColumnUp, jsFindIndex_eq hnd hb]
    rw [if_neg (by omega)]
    simp only [Nat.add_sub_cancel, ha]
  have hdown : moveColumnDown cols a =
      updateColumnOrder (updateColumnOrder cols a.id b.order) b.id a.order := by
    have hlt : j + 1 < cols.length := by
      rcases List.getElem?_eq_some.mp hb with ⟨hh, _⟩
      exact hh
    simp only [moveColumnDown, jsFindIndex_eq hnd ha]
    rw [if_neg (by omega)]
    simp only [hb]
  have hcompute : ∀ (upd : List Column) (x y : Column),
      upd = updateColumnOrder (updateColumnOrder cols x.id y.order) y.id x.order →
      x.id ≠ y.id →
      cols[j]? = some a → cols[j+1]? = some b →
      (x = b ∧ y = a) ∨ (x = a ∧ y = b) → True := fun _ _ _ _ _ _ _ _ => trivial
  clear hcompute
  have hgetUp : ∀ (m : Nat), (updateColumnOrder (updateColumnOrder cols b.id a.order)
      a.id b.order)[m]? = (cols[m]?).map (fun (c : Column) =>
        if (if c.id = b.id then { c with order := a.order } else c).id = a.id
        then { (if c.id = b.id then { c with order := a.order } else c)
               with order := b.order }
        else (if c.id = b.id then { c with order := a.order } else c)) := by
    intro m
    rw [updateColumnOrder_getElem, updateColumnOrder_getElem, Option.map_map]
    rfl
  have hgetDown : ∀ (m : Nat), (updateColumnOrder (updateColumnOrder cols a.id b.order)
      b.id a.order)[m]? = (cols[m]?).map (fun (c : Column) =>
        if (if c.id = a.id then { c with order := b.order } else c).id = b.id
        then { (if c.id = a.id then { c with order := b.order } else c)
               with order := a.order }
        else (if c.id = a.id then { c with order := b.order } else c)) := by
    intro m
    rw [updateColumnOrder_getElem, updateColumnOrder_getElem, Option.map_map]
    rfl
  have hba : b.id ≠ a.id := Ne.symm hab
  refine ⟨⟨?_, ?_, ?_, ?_⟩, ⟨?_, ?_, ?_, ?_⟩, ?_, ?_⟩
  · rw [hup]; simp [updateColumnOrder]
  · rw [hup, hgetUp j, ha]
    simp [hab]
  · rw [hup, hgetUp (j + 1), hb]
    simp [hba]
  · intro m hmj hmj1
    rw [hup, hgetUp m]
    cases hc : cols[m]? with
    | none => rfl
    | some c =>
      have hcb : c.id ≠ b.id := nodup_ids_ne hnd hc hb hmj1
      have hca : c.id ≠ a.id := nodup_ids_ne hnd hc ha hmj
      simp [hcb, hca]
  · rw [hdown]; simp [updateColumnOrder]
  · rw [hdown, hgetDown j, ha]
    simp [hab]
  · rw [hdown, hgetDown (j + 1), hb]
    simp [hba]
  · intro m hmj hmj1
    rw [hdown, hgetDown m]
    cases hc : cols[m]? with
    | none => rfl
    | some c =>
      have hcb : c.id ≠ b.id := nodup_ids_ne hnd hc hb hmj1
      have hca : c.id ≠ a.id := nodup_ids_ne hnd hc ha hmj
      simp [hcb, hca]
  · intro c0 h0
    simp [moveColumnUp, jsFindIndex_eq hnd h0]
  · intro cl hl
    simp only [moveColumnDown, jsFindIndex_eq hnd hl]
    rw [if_pos (by omega)]

/-- Closed instance of claim C8's theorem on three concrete columns, all
hypotheses discharged by evaluation. -/
theorem moveColumnSwapCharacterizationWitness :
    ((moveColumnUp [colA, colB, colC] colB).length = 3 ∧
     (moveColumnUp [colA, colB, colC] colB)[0]? = some { colA with order := colB.order } ∧
     (moveColumnUp [colA, colB, colC] colB)[1]? = some { colB with order := colA.order } ∧
     ∀ m, m ≠ 0 → m ≠ 1 →
       (moveColumnUp [colA, colB, colC] colB)[m]? = [colA, colB, colC][m]?) ∧
    ((moveColumnDown [colA, colB, colC] colA).length = 3 ∧
     (moveColumnDown [colA, colB, colC] colA)[0]? = some { colA with order := colB.order } ∧
     (moveColumnDown [colA, colB, colC] colA)[1]? = some { colB with order := colA.order } ∧
     ∀ m, m ≠ 0 → m ≠ 1 →
       (moveColumnDown [colA, colB, colC] colA)[m]? = [colA, colB, colC][m]?) ∧
    (∀ c0, [colA, colB, colC][0]? = some c0 →
      moveColumnUp [colA, colB, colC] c0 = [colA, colB, colC]) ∧
    (∀ cl, [colA, colB, colC][([colA, colB, colC] : List Column).length - 1]? = some cl →
      moveColumnDown [colA, colB, colC] cl = [colA, colB, colC]) :=
  moveColumnSwapCharacterization [colA, colB, colC] 0 colA colB
    (by decide) (by decide) (by decide) (by decide)

end Worktracker
